import Mathlib

/-!
Verification development for the paragraph-extraction pipeline in
`src/scraping/wiki_fetch.py`.

The Python source is shallowly embedded: strings are `String`/`List Char`,
the two regular expressions (`HEADING_RE = ^(=+)\s*(.*?)\s*\1$` and the
block separator `\n\s*\n`) are embedded as executable backtracking
matchers that follow the Python `re` engine's strategy (greedy `=+` and
`\s*` try longest first and backtrack, lazy `.*?` tries shortest first,
`.` does not match a newline, the pattern is anchored and applied to
already-stripped blocks so `$` is end-of-string), `uuid.uuid5` is embedded
as real SHA-1 over the URL namespace, and the driver loop of `main` is a
recursion over the segmented paragraphs.  `\s` and `str.strip()` are
modelled on the ASCII whitespace characters. -/

set_option maxRecDepth 100000

/-- Whitespace class of Python's `\s` and `str.strip()` (ASCII range). -/
def pyIsSpace (c : Char) : Bool :=
  c = ' ' || c = '\t' || c = '\n' || c = '\r' || c = '\x0b' || c = '\x0c'

/-- Python `str.strip()` on a character list. -/
def pyStrip (l : List Char) : List Char :=
  ((l.dropWhile pyIsSpace).reverse.dropWhile pyIsSpace).reverse

/-- Length of the maximal prefix run of `=` characters (the candidates for
the greedy `(=+)` group of `HEADING_RE`). -/
def eqCount : List Char → Nat
  | [] => 0
  | c :: cs => if c = '=' then eqCount cs + 1 else 0

/-- Length of the maximal whitespace prefix (the candidates for a greedy
`\s*`). -/
def wsCount : List Char → Nat
  | [] => 0
  | c :: cs => if pyIsSpace c then wsCount cs + 1 else 0

/-- Attempt to finish `HEADING_RE` on the remaining input `l`: `\s*\1$`
with `\1` a run of `k` equals signs.  Because `\1$` must consume exactly
the last `k` characters, the greedy `\s*` has exactly one viable width,
`l.length - k`. -/
def tryClose (k : Nat) (l : List Char) : Bool :=
  decide (k ≤ l.length) && (l.take (l.length - k)).all pyIsSpace &&
    decide (l.drop (l.length - k) = List.replicate k '=')

/-- The lazy group `(.*?)` of `HEADING_RE`: try to close at the current
position, otherwise extend the group by one character (which must not be a
newline, since `.` does not match `\n`) and retry.  Returns the text
captured by group 2 of the first match found. -/
def findLazy (k : Nat) (acc : List Char) : List Char → Option (List Char)
  | [] => if tryClose k [] then some acc.reverse else none
  | c :: cs =>
    if tryClose k (c :: cs) then some acc.reverse
    else if c = '\n' then none
    else findLazy k (c :: acc) cs

/-- The first greedy `\s*` of `HEADING_RE`: try consuming `j` whitespace
characters, longest first, backtracking down to zero. -/
def loopJ (k : Nat) (rest : List Char) : Nat → Option (List Char)
  | 0 => findLazy k [] rest
  | j + 1 =>
    match findLazy k [] (rest.drop (j + 1)) with
    | some g2 => some g2
    | none => loopJ k rest j

/-- The greedy `(=+)` of `HEADING_RE`: try a marker run of `k` equals
signs, longest first, backtracking down to one. -/
def loopK (s : List Char) : Nat → Option (List Char)
  | 0 => none
  | k + 1 =>
    match loopJ (k + 1) (s.drop (k + 1)) (wsCount (s.drop (k + 1))) with
    | some g2 => some g2
    | none => loopK s k

/-- `HEADING_RE.match(block)` for an already-stripped block: `some g2`
with the text of capture group 2 when the anchored pattern
`^(=+)\s*(.*?)\s*\1$` matches, `none` otherwise. -/
def headingMatch (s : List Char) : Option (List Char) :=
  loopK s (eqCount s)

/-- Greedy completion of the block separator regex `\n\s*\n`: walk the
whitespace run after the opening newline and remember the position after
the last newline seen; that is where the backtracking greedy `\s*`
followed by `\n` ends.  Returns the input remaining after the match. -/
def sepTail : List Char → Option (List Char) → Option (List Char)
  | [], best => best
  | c :: cs, best =>
    if c = '\n' then sepTail cs (some cs)
    else if pyIsSpace c then sepTail cs best
    else best

/-- Match of the separator regex `\n\s*\n` at the head of the input;
`some rest` leaves the input after the (greedy, leftmost) match. -/
def matchSep : List Char → Option (List Char)
  | [] => none
  | c :: cs => if c = '\n' then sepTail cs none else none

/-- `re.split(r"\n\s*\n", s)`: scan for the leftmost separator match,
cut there, and continue after the match.  The recursion is driven by a
fuel counter so that it is structural; every step consumes at least one
input character, so fuel `s.length + 1` always suffices (see
`splitF_fuel`). -/
def splitF : Nat → List Char → List Char → List (List Char)
  | 0, acc, _ => [acc.reverse]
  | f + 1, acc, s =>
    match matchSep s with
    | some rest => acc.reverse :: splitF f [] rest
    | none =>
      match s with
      | [] => [acc.reverse]
      | c :: cs => splitF f (c :: acc) cs

/-- The block list `re.split(r"\n\s*\n", text)` of
`split_into_section_paragraphs`. -/
def splitOnSep (s : List Char) : List (List Char) :=
  splitF (s.length + 1) [] s

/-- Pointwise update of the `per_section_index` dictionary
(`per_section_index[current_section] = idx + 1`). -/
def updateMap (f : String → Nat) (key : String) (v : Nat) : String → Nat :=
  fun k => if k = key then v else f k

/-- State of the segmentation loop: the current section, the
`per_section_index` dictionary and the rows emitted so far. -/
def SegSt : Type := String × (String → Nat) × List (String × String × Nat)

/-- The body of the `for b in blocks` loop of
`split_into_section_paragraphs`: strip the block, skip it if empty,
otherwise match it against `HEADING_RE` (a match updates the current
section when the stripped group 2 is non-empty and emits nothing); a
non-match is emitted as a paragraph of the current section with the next
per-section index. -/
def segStep (st : SegSt) (b : List Char) : SegSt :=
  let block := pyStrip b
  if block = [] then st
  else
    match headingMatch block with
    | some g2 =>
      let name := String.mk (pyStrip g2)
      if name = "" then st else (name, st.2.1, st.2.2)
    | none =>
      let idx := st.2.1 st.1
      (st.1, updateMap st.2.1 st.1 (idx + 1),
        st.2.2 ++ [(st.1, String.mk block, idx)])

/-- `split_into_section_paragraphs(extract_text)`: the ordered list of
`(section, paragraph, paragraph_index)` tuples. -/
def split_into_section_paragraphs (extract_text : String) : List (String × String × Nat) :=
  if extract_text = "" then []
  else
    (List.foldl segStep (("Lead"), (fun _ => 0), ([]))
      (splitOnSep (pyStrip extract_text.data))).2.2

/-- Big-endian byte rendering of a natural number on `n` bytes. -/
def toBytesBE : Nat → Nat → List Nat
  | 0, _ => []
  | n + 1, v => toBytesBE n (v / 256) ++ [v % 256]

/-- Rotate a 32-bit word (a natural number below `2 ^ 32`) left by `n`. -/
def rotl32 (n b : Nat) : Nat :=
  (b * 2 ^ n) % 2 ^ 32 + b / 2 ^ (32 - n)

/-- SHA-1 message padding: append `0x80`, zeros up to 56 bytes mod 64,
and the 64-bit big-endian bit length. -/
def sha1pad (msg : List Nat) : List Nat :=
  msg ++ 128 :: List.replicate ((119 - msg.length % 64) % 64) 0 ++
    toBytesBE 8 (msg.length * 8)

/-- Split a byte list into 64-byte chunks: accumulate the current chunk
in reverse with a countdown of the remaining capacity. -/
def chunksGo : List Nat → List Nat → Nat → List (List Nat)
  | [], cur, _ => if cur = [] then [] else [cur.reverse]
  | b :: rest, cur, 0 => (b :: cur).reverse :: chunksGo rest [] 63
  | b :: rest, cur, n + 1 => chunksGo rest (b :: cur) n

/-- Split a byte list into 64-byte chunks. -/
def chunks64 (l : List Nat) : List (List Nat) :=
  chunksGo l [] 63

/-- Pack bytes into big-endian 32-bit words. -/
def bytesToWords : List Nat → List Nat
  | a :: b :: c :: d :: rest => (((a * 256 + b) * 256 + c) * 256 + d) :: bytesToWords rest
  | _ => []

/-- Extend the 16-word schedule by `n` further words,
`w[i] = rotl1 (w[i-3] xor w[i-8] xor w[i-14] xor w[i-16])`. -/
def schedExt (w : List Nat) : Nat → List Nat
  | 0 => w
  | n + 1 =>
    schedExt (w ++ [rotl32 1 (w.getD (w.length - 3) 0 ^^^ w.getD (w.length - 8) 0 ^^^
      w.getD (w.length - 14) 0 ^^^ w.getD (w.length - 16) 0)]) n

/-- The SHA-1 round nonlinear function. -/
def sha1f (i b c d : Nat) : Nat :=
  if i < 20 then (b &&& c) ||| ((b ^^^ (2 ^ 32 - 1)) &&& d)
  else if i < 40 then b ^^^ c ^^^ d
  else if i < 60 then (b &&& c) ||| (b &&& d) ||| (c &&& d)
  else b ^^^ c ^^^ d

/-- The SHA-1 round constants. -/
def sha1k (i : Nat) : Nat :=
  if i < 20 then 1518500249
  else if i < 40 then 1859775393
  else if i < 60 then 2400959708
  else 3395469782

/-- The 80-round SHA-1 compression loop over the word schedule. -/
def sha1comp : Nat → Nat × Nat × Nat × Nat × Nat → List Nat → Nat × Nat × Nat × Nat × Nat
  | _, st, [] => st
  | i, (a, b, c, d, e), wi :: rest =>
    sha1comp (i + 1)
      ((rotl32 5 a + sha1f i b c d + e + sha1k i + wi) % 2 ^ 32, a, rotl32 30 b, c, d) rest

/-- Process one 64-byte chunk into the running SHA-1 state. -/
def sha1chunk (h : Nat × Nat × Nat × Nat × Nat) (chunk : List Nat) : Nat × Nat × Nat × Nat × Nat :=
  match sha1comp 0 h (schedExt (bytesToWords chunk) 64) with
  | (a, b, c, d, e) =>
    ((h.1 + a) % 2 ^ 32, (h.2.1 + b) % 2 ^ 32, (h.2.2.1 + c) % 2 ^ 32,
      (h.2.2.2.1 + d) % 2 ^ 32, (h.2.2.2.2 + e) % 2 ^ 32)

/-- SHA-1 digest (20 bytes) of a byte string. -/
def sha1 (msg : List Nat) : List Nat :=
  match List.foldl sha1chunk
      (1732584193, 4023233417, 2562383102, 271733878, 3285377520)
      (chunks64 (sha1pad msg)) with
  | (a, b, c, d, e) =>
    toBytesBE 4 a ++ toBytesBE 4 b ++ toBytesBE 4 c ++ toBytesBE 4 d ++ toBytesBE 4 e

/-- UTF-8 encoding of one code point. -/
def utf8Encode (c : Char) : List Nat :=
  let n := c.toNat
  if n < 128 then [n]
  else if n < 2048 then [192 + n / 64, 128 + n % 64]
  else if n < 65536 then [224 + n / 4096, 128 + n / 64 % 64, 128 + n % 64]
  else [240 + n / 262144, 128 + n / 4096 % 64, 128 + n / 64 % 64, 128 + n % 64]

/-- The 16 bytes of `uuid.NAMESPACE_URL`
(`6ba7b811-9dad-11d1-80b4-00c04fd430c8`). -/
def namespaceURLBytes : List Nat :=
  [107, 167, 184, 17, 157, 173, 17, 209, 128, 180, 0, 192, 79, 212, 48, 200]

/-- Force the UUID version (5) and RFC 4122 variant bits onto the first
16 digest bytes, as `uuid.UUID(bytes=..., version=5)` does. -/
def setVersion5 (bs : List Nat) : List Nat :=
  (bs.set 6 (bs.getD 6 0 % 16 + 80)).set 8 ((bs.set 6 (bs.getD 6 0 % 16 + 80)).getD 8 0 % 64 + 128)

/-- Lowercase hexadecimal digit. -/
def hexDigit (n : Nat) : Char :=
  if n < 10 then Char.ofNat (48 + n) else Char.ofNat (87 + n)

/-- Lowercase hexadecimal rendering of a byte list. -/
def hexStr (bs : List Nat) : List Char :=
  (bs.map (fun b => [hexDigit (b / 16), hexDigit (b % 16)])).flatten

/-- Canonical 8-4-4-4-12 textual form of 16 UUID bytes. -/
def uuidFromBytes (bs : List Nat) : String :=
  String.mk (hexStr (bs.take 4) ++ '-' :: hexStr ((bs.drop 4).take 2) ++
    '-' :: hexStr ((bs.drop 6).take 2) ++ '-' :: hexStr ((bs.drop 8).take 2) ++
    '-' :: hexStr (bs.drop 10))

/-- `str(uuid.uuid5(uuid.NAMESPACE_URL, name))`: SHA-1 of the namespace
bytes followed by the UTF-8 encoding of `name`, truncated to 16 bytes,
with version and variant bits set, in canonical textual form. -/
def uuid5url (name : String) : String :=
  uuidFromBytes (setVersion5 ((sha1 (namespaceURLBytes ++ (name.data.map utf8Encode).flatten)).take 16))

/-- `make_paragraph_id(title, section, paragraph_index, text)`: the
deterministic identifier derived from the canonical `||`-joined key that
uses only the first 120 characters of `text`. -/
def make_paragraph_id (title section_ : String) (paragraph_index : Nat) (text : String) : String :=
  uuid5url (title ++ "||" ++ section_ ++ "||" ++ toString paragraph_index ++ "||" ++
    String.mk (text.data.take 120))

/-- Lookup of a column value in a CSV row dictionary
(`row.get(key)`), where a row is modelled at the `csv.DictReader`
granularity as an association list from column names to values. -/
def rowGet (row : List (String × String)) (key : String) : Option String :=
  (row.find? (fun p => p.1 == key)).map (fun p => p.2)

/-- `load_existing_ids(csv_path)`: the table is modelled as
`none` when the file does not exist and `some rows` otherwise; every row
whose `id` value is present and truthy (non-empty) contributes that value
to the ledger, all other rows are skipped. -/
def load_existing_ids : Option (List (List (String × String))) → List String
  | none => []
  | some rows =>
    rows.foldl
      (fun acc row =>
        match rowGet row ("id") with
        | none => acc
        | some v => if v = "" then acc else acc ++ [v]) []

/-- One output row of the driver (`main`'s `row` dictionary). -/
structure Row where
  id : String
  title : String
  url : String
  sec : String
  paragraph_index : String
  text : String
deriving DecidableEq

/-- The article URL constructed by the driver. -/
def urlOf (title : String) : String :=
  "https://en.wikipedia.org/wiki/" ++ title.replace (" ") ("_")

/-- The stored text of a paragraph:
`para.replace("\n", " ").strip()`. -/
def collapseText (para : String) : String :=
  String.mk (pyStrip ((para.replace ("\n") (" ")).data))

/-- The per-title paragraph loop of `main` (lines 171-193): walk the
segmented paragraphs in order, break once `kept` reaches the cap, skip
paragraphs shorter than `min_chars`, skip identifiers already in the
ledger, and otherwise emit a row, add the identifier to the ledger and
increment `kept`.  Returns the rows accepted for this title and the grown
ledger. -/
def keepLoop (minChars maxParas : Nat) (title : String) (existing : List String)
    (kept : Nat) : List (String × String × Nat) → List Row × List String
  | [] => ([], existing)
  | (sec, para, idx) :: rest =>
    if maxParas ≤ kept then ([], existing)
    else if para.length < minChars then keepLoop minChars maxParas title existing kept rest
    else
      let pid := make_paragraph_id title sec idx para
      if pid ∈ existing then keepLoop minChars maxParas title existing kept rest
      else
        let pr := keepLoop minChars maxParas title (pid :: existing) (kept + 1) rest
        (Row.mk pid title (urlOf title) sec (toString idx) (collapseText para) :: pr.1, pr.2)

/-- The title loop of `main`: fetch each title's extract (the external
fetch is a function parameter; `none` models a fetch failure, which is
skipped, and an empty extract is skipped as well), segment it and run the
per-title loop, threading the ledger through.  Returns all accepted rows
and the final ledger. -/
def runTitles (minChars maxParas : Nat) (fetch : String → Option String)
    (existing : List String) (titles : List String) : List Row × List String :=
  match titles with
  | [] => ([], existing)
  | t :: ts =>
    match fetch t with
    | none => runTitles minChars maxParas fetch existing ts
    | some ex =>
      if ex = "" then runTitles minChars maxParas fetch existing ts
      else
        let pr := keepLoop minChars maxParas t existing 0 (split_into_section_paragraphs ex)
        let rest := runTitles minChars maxParas fetch pr.2 ts
        (pr.1 ++ rest.1, rest.2)

/-- Number of paragraphs of an extract that pass the length filter
(`len(para) >= min_chars`). -/
def countQualifying (minChars : Nat) (extract : String) : Nat :=
  ((split_into_section_paragraphs extract).filter
    (fun p => decide (minChars ≤ p.2.1.length))).length

theorem sepTail_length :
    ∀ (l : List Char) (b : Option (List Char)) (r : List Char),
      sepTail l b = some r → r.length ≤ l.length ∨ b = some r := by
  intro l
  induction l with
  | nil => intro b r h; right; exact h
  | cons c cs ih =>
    intro b r h
    by_cases hc : c = '\n'
    · simp only [sepTail, if_pos hc] at h
      rcases ih (some cs) r h with h1 | h1
      · left; exact Nat.le_succ_of_le h1
      · left
        have : r = cs := by injection h1.symm
        simp [this, Nat.le_succ]
    · by_cases hw : pyIsSpace c
      · simp only [sepTail, if_neg hc, if_pos hw] at h
        rcases ih b r h with h1 | h1
        · left; exact Nat.le_succ_of_le h1
        · right; exact h1
      · simp only [sepTail, if_neg hc, if_neg hw] at h
        right; exact h

theorem matchSep_shrink (s r : List Char) (h : matchSep s = some r) :
    r.length < s.length := by
  match s with
  | [] => simp [matchSep] at h
  | c :: cs =>
    by_cases hc : c = '\n'
    · simp only [matchSep, if_pos hc] at h
      rcases sepTail_length cs none r h with h1 | h1
      · simpa [List.length_cons] using Nat.lt_succ_of_le h1
      · simp at h1
    · simp [matchSep, if_neg hc] at h

/-- Fuel irrelevance for the block splitter: any fuel above the input
length yields the same result, so `splitOnSep`'s choice of
`s.length + 1` is canonical. -/
theorem splitF_fuel :
    ∀ (f1 f2 : Nat) (acc s : List Char), s.length < f1 → s.length < f2 →
      splitF f1 acc s = splitF f2 acc s := by
  intro f1
  induction f1 with
  | zero => intro f2 acc s h1; omega
  | succ a ih =>
    intro f2 acc s h1 h2
    match f2 with
    | 0 => omega
    | b + 1 =>
      cases hm : matchSep s with
      | some rest =>
        have hr := matchSep_shrink s rest hm
        simp only [splitF, hm]
        rw [ih b [] rest (by omega) (by omega)]
      | none =>
        cases s with
        | nil => rfl
        | cons c cs =>
          simp only [splitF, hm]
          exact ih b (c :: acc) cs (by simp at h1; omega) (by simp at h2; omega)

theorem tryClose_spec (k : Nat) (l : List Char) :
    tryClose k l = true ↔
      k ≤ l.length ∧ (∀ c ∈ l.take (l.length - k), pyIsSpace c = true) ∧
        l.drop (l.length - k) = List.replicate k '=' := by
  simp [tryClose, List.all_eq_true, and_assoc]

theorem tryClose_true (k : Nat) (ws : List Char) (hws : ∀ c ∈ ws, pyIsSpace c = true) :
    tryClose k (ws ++ List.replicate k '=') = true := by
  rw [tryClose_spec]
  have hlen : (ws ++ List.replicate k '=').length - k = ws.length := by
    simp
  refine ⟨by simp, ?_, ?_⟩
  · rw [hlen]
    have : List.take ws.length (ws ++ List.replicate k '=') = ws := by
      exact List.take_left ws _
    rw [this]
    exact hws
  · rw [hlen]
    have : List.drop ws.length (ws ++ List.replicate k '=') = List.replicate k '=' := by
      exact List.drop_left ws _
    rw [this]

theorem tryClose_mem_false (k : Nat) (l : List Char) (c : Char)
    (hc : c ∈ l.take (l.length - k)) (hcs : pyIsSpace c = false) :
    tryClose k l = false := by
  cases h : tryClose k l with
  | false => rfl
  | true =>
    exfalso
    have := ((tryClose_spec k l).mp h).2.1 c hc
    rw [hcs] at this
    exact Bool.false_ne_true this

theorem findLazy_close (k : Nat) (acc l : List Char) (h : tryClose k l = true) :
    findLazy k acc l = some acc.reverse := by
  cases l with
  | nil => simp [findLazy, h]
  | cons c cs => simp [findLazy, h]

/-- On input `name ++ ws2 ++ marker-run`, where the name is non-empty,
newline-free and ends in a non-whitespace character and `ws2` is
whitespace, the lazy group closes exactly at the end of the name. -/
theorem findLazy_name (k : Nat) (ws2 : List Char) (hws2 : ∀ c ∈ ws2, pyIsSpace c = true) :
    ∀ (nm acc : List Char),
      (∀ c ∈ nm, c ≠ '\n') →
      (∀ c, nm.getLast? = some c → pyIsSpace c = false) →
      findLazy k acc (nm ++ (ws2 ++ List.replicate k '=')) = some (acc.reverse ++ nm) := by
  intro nm
  induction nm with
  | nil =>
    intro acc h1 h2
    rw [List.nil_append, findLazy_close k acc _ (tryClose_true k ws2 hws2), List.append_nil]
  | cons c cs ih =>
    intro acc h1 h2
    have hne : c :: cs ≠ [] := List.cons_ne_nil c cs
    have hfalse : tryClose k ((c :: cs) ++ (ws2 ++ List.replicate k '=')) = false := by
      apply tryClose_mem_false k _ ((c :: cs).getLast hne)
      · have hassoc : (c :: cs) ++ (ws2 ++ List.replicate k '=') =
            ((c :: cs) ++ ws2) ++ List.replicate k '=' := by
          rw [List.append_assoc]
        have hlen : ((c :: cs) ++ (ws2 ++ List.replicate k '=')).length - k =
            ((c :: cs) ++ ws2).length := by
          simp
          omega
        rw [hlen, hassoc, List.take_left]
        exact List.mem_append_left ws2 (List.getLast_mem hne)
      · exact h2 _ (List.getLast?_eq_getLast (c :: cs) hne)
    have hstep : (c :: cs) ++ (ws2 ++ List.replicate k '=') =
        c :: (cs ++ (ws2 ++ List.replicate k '=')) := rfl
    rw [hstep] at hfalse ⊢
    simp only [findLazy, hfalse, Bool.false_eq_true, if_false,
      h1 c (List.mem_cons_self c cs), if_false]
    have h1' : ∀ x ∈ cs, x ≠ '\n' := fun x hx => h1 x (List.mem_cons_of_mem c hx)
    have h2' : ∀ x, cs.getLast? = some x → pyIsSpace x = false := by
      intro x hx
      apply h2 x
      cases cs with
      | nil => simp at hx
      | cons d ds => rw [List.getLast?_cons_cons]; exact hx
    rw [ih (c :: acc) h1' h2']
    simp

/-- The whitespace count of `ws ++ r` is exactly the length of `ws` when
`ws` is all whitespace and `r` starts with a non-whitespace character. -/
theorem wsCount_append (ws r : List Char)
    (hws : ∀ c ∈ ws, pyIsSpace c = true)
    (hr : ∀ c, r.head? = some c → pyIsSpace c = false) :
    wsCount (ws ++ r) = ws.length := by
  induction ws with
  | nil =>
    cases r with
    | nil => rfl
    | cons c cs => simp [wsCount, hr c rfl]
  | cons c cs ih =>
    simp only [List.cons_append, wsCount, hws c (List.mem_cons_self c cs), if_true,
      List.length_cons, List.append_eq]
    rw [ih (fun x hx => hws x (List.mem_cons_of_mem c hx))]

/-- The equals-sign count of `marker-run ++ r` is exactly `k` when `r`
does not start with an equals sign. -/
theorem eqCount_append (k : Nat) (r : List Char)
    (hr : ∀ c, r.head? = some c → c ≠ '=') :
    eqCount (List.replicate k '=' ++ r) = k := by
  induction k with
  | zero =>
    cases r with
    | nil => rfl
    | cons c cs => simp [eqCount, hr c rfl]
  | succ n ih =>
    rw [List.replicate_succ, List.cons_append]
    simp [eqCount, ih]

/-- `str.strip()` is the identity on a string whose first and last
characters are not whitespace. -/
theorem pyStrip_eq_self (l : List Char)
    (hh : ∀ c, l.head? = some c → pyIsSpace c = false)
    (hl : ∀ c, l.getLast? = some c → pyIsSpace c = false) :
    pyStrip l = l := by
  unfold pyStrip
  cases l with
  | nil => rfl
  | cons c cs =>
    rw [List.dropWhile_cons, if_neg (by rw [hh c rfl]; simp)]
    cases hrev : (c :: cs).reverse with
    | nil => exact absurd (congrArg List.length hrev) (by simp)
    | cons d ds =>
      have hd : (c :: cs).getLast? = some d := by
        rw [← List.head?_reverse, hrev]; rfl
      rw [List.dropWhile_cons, if_neg (by rw [hl d hd]; simp), ← hrev,
        List.reverse_reverse]

/-- On a block of the shape `marker-run, whitespace, name, whitespace,
identical marker-run`, with a non-empty newline-free name that neither
starts nor ends in whitespace or an equals sign, `HEADING_RE` matches and
captures exactly the name. -/
theorem headingMatch_block (k0 : Nat) (ws1 ws2 nm : List Char)
    (hws1 : ∀ c ∈ ws1, pyIsSpace c = true) (hws2 : ∀ c ∈ ws2, pyIsSpace c = true)
    (hnm : nm ≠ []) (hnl : ∀ c ∈ nm, c ≠ '\n')
    (hh : ∀ c, nm.head? = some c → pyIsSpace c = false ∧ c ≠ '=')
    (hl : ∀ c, nm.getLast? = some c → pyIsSpace c = false) :
    headingMatch (List.replicate (k0 + 1) '=' ++
        (ws1 ++ (nm ++ (ws2 ++ List.replicate (k0 + 1) '=')))) = some nm := by
  have hr_ne : ∀ c,
      (ws1 ++ (nm ++ (ws2 ++ List.replicate (k0 + 1) '='))).head? = some c → c ≠ '=' := by
    intro c hc
    cases ws1 with
    | nil =>
      cases nm with
      | nil => exact absurd rfl hnm
      | cons d ds =>
        simp only [List.nil_append, List.cons_append, List.head?_cons,
          Option.some.injEq] at hc
        exact hc ▸ (hh d rfl).2
    | cons w ws =>
      simp only [List.cons_append, List.head?_cons, Option.some.injEq] at hc
      intro he
      have hw := hws1 w (List.mem_cons_self w ws)
      rw [hc, he] at hw
      exact absurd hw (by decide)
  have hnm_head : ∀ c, (nm ++ (ws2 ++ List.replicate (k0 + 1) '=')).head? = some c →
      pyIsSpace c = false := by
    intro c hc
    cases nm with
    | nil => exact absurd rfl hnm
    | cons d ds =>
      simp only [List.cons_append, List.head?_cons, Option.some.injEq] at hc
      exact hc ▸ (hh d rfl).1
  unfold headingMatch
  rw [eqCount_append (k0 + 1) _ hr_ne]
  have hdrop : (List.replicate (k0 + 1) '=' ++
      (ws1 ++ (nm ++ (ws2 ++ List.replicate (k0 + 1) '=')))).drop (k0 + 1) =
      ws1 ++ (nm ++ (ws2 ++ List.replicate (k0 + 1) '=')) := by
    have h := List.drop_left (List.replicate (k0 + 1) '=')
      (ws1 ++ (nm ++ (ws2 ++ List.replicate (k0 + 1) '=')))
    rw [List.length_replicate] at h
    exact h
  simp only [loopK, hdrop]
  rw [wsCount_append ws1 _ hws1 hnm_head]
  cases ws1 with
  | nil =>
    simp only [List.length_nil, loopJ, List.nil_append]
    rw [findLazy_name (k0 + 1) ws2 hws2 nm [] hnl hl]
    simp
  | cons w ws =>
    simp only [List.length_cons, loopJ]
    have hdrop2 : ((w :: ws) ++ (nm ++ (ws2 ++ List.replicate (k0 + 1) '='))).drop
        (ws.length + 1) = nm ++ (ws2 ++ List.replicate (k0 + 1) '=') := by
      have h := List.drop_left (w :: ws) (nm ++ (ws2 ++ List.replicate (k0 + 1) '='))
      rw [List.length_cons] at h
      exact h
    rw [hdrop2, findLazy_name (k0 + 1) ws2 hws2 nm [] hnl hl]
    simp

theorem findLazy_suffix (k : Nat) :
    ∀ (l acc g : List Char), findLazy k acc l = some g →
      ∃ l', l' <:+ l ∧ tryClose k l' = true := by
  intro l
  induction l with
  | nil =>
    intro acc g h
    cases hc : tryClose k [] with
    | true => exact ⟨[], List.suffix_refl [], hc⟩
    | false => rw [findLazy, hc] at h; simp at h
  | cons c cs ih =>
    intro acc g h
    cases hc : tryClose k (c :: cs) with
    | true => exact ⟨c :: cs, List.suffix_refl _, hc⟩
    | false =>
      by_cases hnl : c = '\n'
      · rw [findLazy, hc, hnl] at h; simp at h
      · rw [findLazy, hc] at h
        simp only [Bool.false_eq_true, if_false, hnl, ite_false] at h
        obtain ⟨l', hsub, hclose⟩ := ih (c :: acc) g h
        exact ⟨l', hsub.trans (List.suffix_cons c cs), hclose⟩

theorem loopJ_suffix (k : Nat) (rest : List Char) :
    ∀ (j : Nat) (g : List Char), loopJ k rest j = some g →
      ∃ l', l' <:+ rest ∧ tryClose k l' = true := by
  intro j
  induction j with
  | zero =>
    intro g h
    exact findLazy_suffix k rest [] g h
  | succ n ih =>
    intro g h
    rw [loopJ] at h
    cases hf : findLazy k [] (rest.drop (n + 1)) with
    | some g2 =>
      obtain ⟨l', hs, hc⟩ := findLazy_suffix k _ [] g2 hf
      exact ⟨l', hs.trans (List.drop_suffix (n + 1) rest), hc⟩
    | none => rw [hf] at h; exact ih g h

theorem loopK_suffix (s : List Char) :
    ∀ (k : Nat) (g2 : List Char), loopK s k = some g2 →
      ∃ K l', 1 ≤ K ∧ l' <:+ s ∧ tryClose K l' = true := by
  intro k
  induction k with
  | zero => intro g2 h; rw [loopK] at h; exact absurd h (by simp)
  | succ n ih =>
    intro g2 h
    rw [loopK] at h
    cases hj : loopJ (n + 1) (s.drop (n + 1)) (wsCount (s.drop (n + 1))) with
    | some gj =>
      obtain ⟨l', hs, hc⟩ := loopJ_suffix (n + 1) _ _ gj hj
      exact ⟨n + 1, l', by omega, hs.trans (List.drop_suffix _ s), hc⟩
    | none => rw [hj] at h; exact ih g2 h

theorem tryClose_concat (K : Nat) (hK : 1 ≤ K) (l : List Char)
    (h : tryClose K l = true) : ∃ t, l = t ++ ['='] := by
  obtain ⟨hle, hws, hdrop⟩ := (tryClose_spec K l).mp h
  obtain ⟨K0, rfl⟩ : ∃ K0, K = K0 + 1 := ⟨K - 1, by omega⟩
  refine ⟨l.take (l.length - (K0 + 1)) ++ List.replicate K0 '=', ?_⟩
  conv_lhs => rw [← List.take_append_drop (l.length - (K0 + 1)) l]
  rw [hdrop, List.append_assoc, ← List.replicate_succ']

/-- Any block accepted by `HEADING_RE` begins and ends with an equals
sign: the greedy `(=+)` needs a non-empty run at the front and the
backreference `\1$` needs the same run at the very end. -/
theorem headingMatch_ends (b g : List Char) (h : headingMatch b = some g) :
    b.head? = some '=' ∧ b.getLast? = some '=' := by
  constructor
  · unfold headingMatch at h
    cases b with
    | nil => rw [show eqCount [] = 0 from rfl, loopK] at h; exact absurd h (by simp)
    | cons c cs =>
      by_cases hc : c = '='
      · rw [hc]; rfl
      · rw [show eqCount (c :: cs) = 0 from by simp [eqCount, hc], loopK] at h
        exact absurd h (by simp)
  · obtain ⟨K, l', hK, hsuf, hclose⟩ := loopK_suffix b (eqCount b) g h
    obtain ⟨t, rfl⟩ := tryClose_concat K hK l' hclose
    obtain ⟨pre, hpre⟩ := hsuf
    rw [← hpre, ← List.append_assoc, List.getLast?_concat]

/-- C10: on a block of the shape marker-run, whitespace, name,
whitespace, identical marker-run — where the whitespace may be arbitrary
`\s` characters including newlines, as in the block joining
`==`, `\n`, `Name`, `\n`, `==` — the segmenter treats the block as a
heading: the current section becomes the name and no paragraph row is
emitted.  The name is a non-empty, newline-free token that neither starts
nor ends with whitespace or an equals sign. -/
theorem c10_heading_whitespace (k : Nat) (ws1 ws2 nm : List Char) (cur : String)
    (counts : String → Nat) (rows : List (String × String × Nat))
    (hk : 1 ≤ k)
    (hws1 : ∀ c ∈ ws1, pyIsSpace c = true) (hws2 : ∀ c ∈ ws2, pyIsSpace c = true)
    (hnm : nm ≠ []) (hnl : ∀ c ∈ nm, c ≠ '\n')
    (hh1 : pyIsSpace (nm.headD ' ') = false) (hh2 : nm.headD ' ' ≠ '=')
    (hl1 : pyIsSpace (nm.getLastD ' ') = false) (hl2 : nm.getLastD ' ' ≠ '=') :
    segStep (cur, counts, rows)
        (List.replicate k '=' ++ (ws1 ++ (nm ++ (ws2 ++ List.replicate k '=')))) =
      (String.mk nm, counts, rows) := by
  obtain ⟨k0, rfl⟩ : ∃ k0, k = k0 + 1 := ⟨k - 1, by omega⟩
  have hh : ∀ c, nm.head? = some c → pyIsSpace c = false ∧ c ≠ '=' := by
    intro c hc
    cases nm with
    | nil => simp at hc
    | cons d ds =>
      simp only [List.head?_cons, Option.some.injEq] at hc
      rw [← hc]
      rw [List.headD_cons] at hh1 hh2
      exact ⟨hh1, hh2⟩
  have hl : ∀ c, nm.getLast? = some c → pyIsSpace c = false ∧ c ≠ '=' := by
    intro c hc
    have hD := List.getLastD_eq_getLast? ' ' nm
    rw [hc] at hD
    simp only [Option.getD_some] at hD
    rw [hD] at hl1 hl2
    exact ⟨hl1, hl2⟩
  have hmatch := headingMatch_block k0 ws1 ws2 nm hws1 hws2 hnm hnl hh
    (fun c hc => (hl c hc).1)
  have hbhead : (List.replicate (k0 + 1) '=' ++
      (ws1 ++ (nm ++ (ws2 ++ List.replicate (k0 + 1) '=')))).head? = some '=' := by
    rw [List.replicate_succ]
    rfl
  have hblast : (List.replicate (k0 + 1) '=' ++
      (ws1 ++ (nm ++ (ws2 ++ List.replicate (k0 + 1) '=')))).getLast? = some '=' := by
    have hrep : (List.replicate (k0 + 1) '=').getLast? = some '=' := by
      rw [List.replicate_succ', List.getLast?_concat]
    simp [List.getLast?_append, hrep]
  have hstrip : pyStrip (List.replicate (k0 + 1) '=' ++
      (ws1 ++ (nm ++ (ws2 ++ List.replicate (k0 + 1) '=')))) =
      List.replicate (k0 + 1) '=' ++
        (ws1 ++ (nm ++ (ws2 ++ List.replicate (k0 + 1) '='))) := by
    apply pyStrip_eq_self
    · intro c hc
      rw [hbhead, Option.some.injEq] at hc
      rw [← hc]
      decide
    · intro c hc
      rw [hblast, Option.some.injEq] at hc
      rw [← hc]
      decide
  have hbne : List.replicate (k0 + 1) '=' ++
      (ws1 ++ (nm ++ (ws2 ++ List.replicate (k0 + 1) '='))) ≠ [] := by
    intro habs
    rw [habs] at hbhead
    exact absurd hbhead (by simp)
  have hstripnm : pyStrip nm = nm :=
    pyStrip_eq_self nm (fun c hc => (hh c hc).1) (fun c hc => (hl c hc).1)
  have hname_ne : String.mk nm ≠ "" := by
    intro habs
    apply hnm
    have := congrArg String.data habs
    simpa using this
  simp only [segStep, hstrip, hmatch, hstripnm]
  rw [if_neg hbne, if_neg hname_ne]

/-- C10 witness: the multi-line block formed from `==`, a newline,
`Name`, a newline and `==` is consumed as a heading named `Name`. -/
theorem c10_heading_whitespace_witness :
    segStep (("Lead"), (fun _ => 0), ([]))
        (List.replicate 2 '=' ++
          (("\n").data ++ (("Name").data ++ (("\n").data ++ List.replicate 2 '=')))) =
      (String.mk (("Name").data), (fun _ => 0), ([])) :=
  c10_heading_whitespace 2 (("\n").data) (("\n").data) (("Name").data) (("Lead"))
    (fun _ => 0) ([]) (by decide) (by decide) (by decide) (by decide) (by decide)
    (by decide) (by decide) (by decide) (by decide)

/-- C2 counterexample: the block with unequal marker runs
`=== Not A Heading ==` is not segmented as a paragraph of the current
section — the greedy `(=+)` backtracks to `==` and the block matches
`HEADING_RE` after all. -/
theorem c2_mismatch_counterexample :
    split_into_section_paragraphs ("Intro\n\n=== Not A Heading ==\n\nTail") ≠
      [(("Lead"), ("Intro"), 0), (("Lead"), ("=== Not A Heading =="), 1),
        (("Lead"), ("Tail"), 2)] := by
  decide

/-- C2 (amended): a block with unequal opening and closing marker runs
can still match the heading pattern by folding the surplus markers into
the captured name: `=== Not A Heading ==` is consumed as a heading named
`= Not A Heading`, which replaces the current section, and the block is
not emitted as a paragraph. -/
theorem c2_mismatch_amended :
    split_into_section_paragraphs ("Intro\n\n=== Not A Heading ==\n\nTail") =
      [(("Lead"), ("Intro"), 0), (("= Not A Heading"), ("Tail"), 0)] := by
  decide

/-- C3 counterexample: the block `= X =`, whose marker runs have length
one, is not emitted as a paragraph of the current section — it is
recognized as a heading named `X`. -/
theorem c3_single_marker_counterexample :
    split_into_section_paragraphs ("= X =\n\nPara") ≠
      [(("Lead"), ("= X ="), 0), (("Lead"), ("Para"), 1)] := by
  decide

/-- C3 (amended): a trimmed block is recognized as a heading only when it
begins and ends with a run of equals signs, but runs of length one
already qualify (`=+` in `HEADING_RE` requires one or more, not two or
more): any match starts and ends with `=`, and `= X =` is recognized as a
heading named `X`, so the following paragraph belongs to section `X`. -/
theorem c3_single_marker_amended :
    (∀ (b g : List Char), headingMatch b = some g →
        b.head? = some '=' ∧ b.getLast? = some '=') ∧
      split_into_section_paragraphs ("= X =\n\nPara") = [(("X"), ("Para"), 0)] :=
  ⟨headingMatch_ends, by decide⟩

/-- C3 witness: the amended necessary condition applied to the concrete
heading block `= X =`, whose match captures `X`. -/
theorem c3_single_marker_amended_witness :
    (("= X =").data).head? = some '=' ∧ (("= X =").data).getLast? = some '=' :=
  c3_single_marker_amended.1 (("= X =").data) (("X").data) (by decide)

/-- C5: segmenting
`Para A\n\n== Sec1 ==\n\nPara B\n\nPara C\n\n== Sec2 ==\n\nPara D`
yields exactly the claimed ordered sequence, with the per-section index
restarting at 0 when the section changes. -/
theorem c5_section_restart :
    split_into_section_paragraphs
        ("Para A\n\n== Sec1 ==\n\nPara B\n\nPara C\n\n== Sec2 ==\n\nPara D") =
      [(("Lead"), ("Para A"), 0), (("Sec1"), ("Para B"), 0), (("Sec1"), ("Para C"), 1),
        (("Sec2"), ("Para D"), 0)] := by
  decide

/-- C6: the identifier depends only on the first 120 characters of the
paragraph text — two texts agreeing on their first 120 characters produce
the same identifier for the same title, section and index. -/
theorem c6_id_first120 (title sec : String) (i : Nat) (t1 t2 : String)
    (h : t1.data.take 120 = t2.data.take 120) :
    make_paragraph_id title sec i t1 = make_paragraph_id title sec i t2 := by
  simp only [make_paragraph_id, h]

/-- C6 witness: two texts that agree on their first 120 characters and
differ at position 121 receive the same identifier. -/
theorem c6_id_first120_witness :
    make_paragraph_id ("t") ("s") 0 (String.mk (List.replicate 121 'a')) =
      make_paragraph_id ("t") ("s") 0 (String.mk (List.replicate 120 'a' ++ ['b'])) :=
  c6_id_first120 ("t") ("s") 0 (String.mk (List.replicate 121 'a'))
    (String.mk (List.replicate 120 'a' ++ ['b'])) (by decide)

/-- C7: identification is deterministic — `make_paragraph_id` is a pure
function of its four arguments (the embedding of the source, which hashes
the canonical key with content-derived `uuid5` and consults no clock,
randomness, process or machine state), so two invocations on the same
tuple are the same term and yield the same identifier. -/
theorem c7_identify_deterministic (title sec : String) (i : Nat) (text : String) :
    make_paragraph_id title sec i text = make_paragraph_id title sec i text := rfl

/-- C7 witness: the determinism statement at a concrete tuple. -/
theorem c7_identify_deterministic_witness :
    make_paragraph_id ("t") ("s") 0 ("x") = make_paragraph_id ("t") ("s") 0 ("x") :=
  c7_identify_deterministic ("t") ("s") 0 ("x")

/-- One segmentation step preserves the invariant that, for every section
name, the indices of that section's rows so far are exactly
`range (per_section_index s)`. -/
theorem segStep_inv (st : SegSt) (b : List Char)
    (h : ∀ s, ((st.2.2.filter (fun r => decide (r.1 = s))).map (fun r => r.2.2)) =
      List.range (st.2.1 s)) :
    ∀ s, (((segStep st b).2.2.filter (fun r => decide (r.1 = s))).map (fun r => r.2.2)) =
      List.range ((segStep st b).2.1 s) := by
  intro s
  by_cases hb : pyStrip b = []
  · simp only [segStep, hb, if_pos rfl]
    exact h s
  · cases hm : headingMatch (pyStrip b) with
    | some g2 =>
      by_cases hn : String.mk (pyStrip g2) = ""
      · simp only [segStep, hm, if_neg hb, if_pos hn]
        exact h s
      · simp only [segStep, hm, if_neg hb, if_neg hn]
        exact h s
    | none =>
      simp only [segStep, hm, if_neg hb]
      rw [List.filter_append, List.map_append]
      by_cases hs : st.1 = s
      · subst hs
        rw [h st.1]
        simp [updateMap, List.range_succ]
      · simp only [updateMap]
        rw [if_neg (fun hss => hs hss.symm)]
        have hempty : List.filter (fun r => decide (r.1 = s))
            [(st.1, String.mk (pyStrip b), st.2.1 st.1)] = [] := by
          simp [hs]
        rw [hempty]
        simp only [List.map_nil, List.append_nil]
        exact h s

/-- The segmentation fold preserves the per-section index invariant. -/
theorem segFold_inv (blocks : List (List Char)) :
    ∀ (st : SegSt),
      (∀ s, ((st.2.2.filter (fun r => decide (r.1 = s))).map (fun r => r.2.2)) =
        List.range (st.2.1 s)) →
      ∀ s, (((List.foldl segStep st blocks).2.2.filter (fun r => decide (r.1 = s))).map
          (fun r => r.2.2)) =
        List.range ((List.foldl segStep st blocks).2.1 s) := by
  induction blocks with
  | nil => intro st h s; exact h s
  | cons b bs ih =>
    intro st h s
    rw [List.foldl_cons]
    exact ih (segStep st b) (segStep_inv st b h) s

/-- C4: for every input text and section name, the `local_index` values
of that section's rows are, in emission order, exactly `0, 1, 2, ...` —
contiguous, unique and starting at 0 — and because the per-section
counter is keyed by the section's string value, it resumes rather than
resets when the same name reoccurs after an interruption. -/
theorem c4_local_index_invariant (text s : String) :
    ((split_into_section_paragraphs text).filter (fun r => decide (r.1 = s))).map
        (fun r => r.2.2) =
      List.range (((split_into_section_paragraphs text).filter
        (fun r => decide (r.1 = s))).length) := by
  by_cases ht : text = ""
  · simp [split_into_section_paragraphs, ht]
  · have hinv := segFold_inv (splitOnSep (pyStrip text.data))
      (("Lead"), (fun _ => 0), ([])) (by intro s'; simp) s
    simp only [split_into_section_paragraphs, if_neg ht]
    have hlen : (((List.foldl segStep (("Lead"), (fun _ => 0), ([]))
        (splitOnSep (pyStrip text.data))).2.2.filter
          (fun r => decide (r.1 = s))).length) =
        (List.foldl segStep (("Lead"), (fun _ => 0), ([]))
          (splitOnSep (pyStrip text.data))).2.1 s := by
      have hmap := congrArg List.length hinv
      simpa using hmap
    rw [hlen]
    exact hinv

/-- C4 witness: the invariant at a concrete two-paragraph text. -/
theorem c4_local_index_invariant_witness :
    ((split_into_section_paragraphs ("A\n\nB")).filter
        (fun r => decide (r.1 = ("Lead")))).map (fun r => r.2.2) =
      List.range (((split_into_section_paragraphs ("A\n\nB")).filter
        (fun r => decide (r.1 = ("Lead")))).length) :=
  c4_local_index_invariant ("A\n\nB") ("Lead")

/-- The per-title loop never keeps more than `maxParas - kept` further
rows. -/
theorem keepLoop_length (minChars maxParas : Nat) (title : String) :
    ∀ (paras : List (String × String × Nat)) (existing : List String) (kept : Nat),
      (keepLoop minChars maxParas title existing kept paras).1.length ≤ maxParas - kept := by
  intro paras
  induction paras with
  | nil => intro existing kept; simp [keepLoop]
  | cons p rest ih =>
    intro existing kept
    obtain ⟨sec, para, idx⟩ := p
    by_cases h1 : maxParas ≤ kept
    · simp [keepLoop, h1]
    · by_cases h2 : para.length < minChars
      · simp only [keepLoop, if_neg h1, if_pos h2]
        exact ih existing kept
      · by_cases h3 : make_paragraph_id title sec idx para ∈ existing
        · simp only [keepLoop, if_neg h1, if_neg h2, if_pos h3]
          exact ih existing kept
        · have hrec := ih (make_paragraph_id title sec idx para :: existing) (kept + 1)
          simp only [keepLoop, if_neg h1, if_neg h2, if_neg h3, List.length_cons]
          omega

/-- C8: for every cap value and every single article processed by the
driver, at most `maxParas` rows are accepted, regardless of how many
paragraphs pass the length filter — the count is of kept paragraphs in
segmentation order. -/
theorem c8_cap_enforcement (minChars maxParas : Nat) (title : String)
    (existing : List String) (extract : String) :
    (keepLoop minChars maxParas title existing 0
      (split_into_section_paragraphs extract)).1.length ≤ maxParas := by
  have h := keepLoop_length minChars maxParas title (split_into_section_paragraphs extract)
    existing 0
  simpa using h

/-- C8 witness: the cap bound at a concrete article. -/
theorem c8_cap_enforcement_witness :
    (keepLoop 1 2 ("T") ([]) 0
      (split_into_section_paragraphs ("A\n\nB\n\nC"))).1.length ≤ 2 :=
  c8_cap_enforcement 1 2 ("T") ([]) ("A\n\nB\n\nC")

theorem load_fold_mem :
    ∀ (rows : List (List (String × String))) (acc : List String) (i : String),
      (i ∈ rows.foldl
        (fun acc row =>
          match rowGet row ("id") with
          | none => acc
          | some v => if v = "" then acc else acc ++ [v]) acc) ↔
        (i ∈ acc ∨ ∃ row ∈ rows, rowGet row ("id") = some i ∧ i ≠ "") := by
  intro rows
  induction rows with
  | nil => intro acc i; simp
  | cons r rs ih =>
    intro acc i
    rw [List.foldl_cons]
    cases hr : rowGet r ("id") with
    | none =>
      simp only [hr]
      rw [ih]
      simp [List.exists_mem_cons_iff, hr]
    | some v =>
      by_cases hv : v = ""
      · simp only [hr, if_pos hv]
        rw [ih]
        subst hv
        simp only [List.exists_mem_cons_iff, hr, Option.some.injEq]
        constructor
        · intro hcase
          rcases hcase with hacc | hex
          · exact Or.inl hacc
          · exact Or.inr (Or.inr hex)
        · intro hcase
          rcases hcase with hacc | ⟨hvi, hne⟩ | hex
          · exact Or.inl hacc
          · exact absurd hvi.symm hne
          · exact Or.inr hex
      · simp only [hr, if_neg hv]
        rw [ih]
        simp only [List.exists_mem_cons_iff, hr, Option.some.injEq, List.mem_append,
          List.mem_singleton]
        constructor
        · intro hcase
          rcases hcase with (hacc | hiv) | hex
          · exact Or.inl hacc
          · subst hiv
            exact Or.inr (Or.inl ⟨rfl, hv⟩)
          · exact Or.inr (Or.inr hex)
        · intro hcase
          rcases hcase with hacc | ⟨hvi, hne⟩ | hex
          · exact Or.inl (Or.inl hacc)
          · exact Or.inl (Or.inr hvi.symm)
          · exact Or.inr hex

/-- C9: the dedup ledger loading tolerates malformed rows — a missing
table yields the empty ledger, and an identifier is collected exactly
when some row carries it as a non-empty `id` value; rows lacking an `id`
value contribute nothing (and the embedding is a total function, so no
error is possible). -/
theorem c9_ledger_tolerates_malformed :
    load_existing_ids none = ([] : List String) ∧
      ∀ (rows : List (List (String × String))) (i : String),
        (i ∈ load_existing_ids (some rows)) ↔
          (∃ row ∈ rows, rowGet row ("id") = some i ∧ i ≠ "") := by
  refine ⟨rfl, ?_⟩
  intro rows i
  have h := load_fold_mem rows [] i
  simp only [load_existing_ids]
  rw [h]
  simp

/-- C9 witness: a well-formed row's identifier is collected. -/
theorem c9_ledger_witness :
    ∃ row ∈ [[(("id" : String), ("x" : String))]],
      rowGet row ("id") = some ("x") ∧ ("x" : String) ≠ "" :=
  (c9_ledger_tolerates_malformed.2 ([[(("id"), ("x"))]]) ("x")).mp (by decide)

/-- The per-title loop only ever grows the ledger. -/
theorem keepLoop_mono (minChars maxParas : Nat) (title : String) :
    ∀ (paras : List (String × String × Nat)) (existing : List String) (kept : Nat)
      (x : String), x ∈ existing →
        x ∈ (keepLoop minChars maxParas title existing kept paras).2 := by
  intro paras
  induction paras with
  | nil => intro existing kept x hx; exact hx
  | cons p rest ih =>
    intro existing kept x hx
    obtain ⟨sec, para, idx⟩ := p
    by_cases h1 : maxParas ≤ kept
    · simpa [keepLoop, h1] using hx
    · by_cases h2 : para.length < minChars
      · simp only [keepLoop, if_neg h1, if_pos h2]
        exact ih existing kept x hx
      · by_cases h3 : make_paragraph_id title sec idx para ∈ existing
        · simp only [keepLoop, if_neg h1, if_neg h2, if_pos h3]
          exact ih existing kept x hx
        · simp only [keepLoop, if_neg h1, if_neg h2, if_neg h3]
          exact ih _ (kept + 1) x (List.mem_cons_of_mem _ hx)

/-- When the number of qualifying paragraphs fits under the cap, the
per-title loop never breaks, so the identifier of every qualifying
paragraph ends up in the ledger. -/
theorem keepLoop_covers (minChars maxParas : Nat) (title : String) :
    ∀ (paras : List (String × String × Nat)) (existing : List String) (kept : Nat),
      (paras.filter (fun p => decide (minChars ≤ p.2.1.length))).length + kept ≤ maxParas →
      ∀ sec para idx, ((sec, para, idx) ∈ paras) → minChars ≤ para.length →
        make_paragraph_id title sec idx para ∈
          (keepLoop minChars maxParas title existing kept paras).2 := by
  intro paras
  induction paras with
  | nil => intro existing kept hcount sec para idx hmem; simp at hmem
  | cons p rest ih =>
    intro existing kept hcount sec para idx hmem hlen
    obtain ⟨sec0, para0, idx0⟩ := p
    by_cases h1 : maxParas ≤ kept
    · exfalso
      have hq : (sec, para, idx) ∈ (((sec0, para0, idx0) :: rest).filter
          (fun p => decide (minChars ≤ p.2.1.length))) :=
        List.mem_filter.mpr ⟨hmem, by simpa using hlen⟩
      have hpos := List.length_pos.mpr (List.ne_nil_of_mem hq)
      omega
    · by_cases h2 : para0.length < minChars
      · have hf : (((sec0, para0, idx0) :: rest).filter
            (fun p => decide (minChars ≤ p.2.1.length))) =
            rest.filter (fun p => decide (minChars ≤ p.2.1.length)) := by
          rw [List.filter_cons]
          simp [not_le.mpr h2]
        rw [hf] at hcount
        simp only [keepLoop, if_neg h1, if_pos h2]
        rcases List.mem_cons.mp hmem with heq | hmem'
        · exfalso
          simp only [Prod.mk.injEq] at heq
          obtain ⟨_, hp, _⟩ := heq
          rw [hp] at hlen
          omega
        · exact ih existing kept hcount sec para idx hmem' hlen
      · have hf : (((sec0, para0, idx0) :: rest).filter
            (fun p => decide (minChars ≤ p.2.1.length))).length =
            (rest.filter (fun p => decide (minChars ≤ p.2.1.length))).length + 1 := by
          rw [List.filter_cons]
          simp [not_lt.mp h2]
        rw [hf] at hcount
        by_cases h3 : make_paragraph_id title sec0 idx0 para0 ∈ existing
        · simp only [keepLoop, if_neg h1, if_neg h2, if_pos h3]
          rcases List.mem_cons.mp hmem with heq | hmem'
          · simp only [Prod.mk.injEq] at heq
            obtain ⟨rfl, rfl, rfl⟩ := heq
            exact keepLoop_mono minChars maxParas title rest existing kept _ h3
          · exact ih existing kept (by omega) sec para idx hmem' hlen
        · simp only [keepLoop, if_neg h1, if_neg h2, if_neg h3]
          rcases List.mem_cons.mp hmem with heq | hmem'
          · simp only [Prod.mk.injEq] at heq
            obtain ⟨rfl, rfl, rfl⟩ := heq
            exact keepLoop_mono minChars maxParas title rest _ (kept + 1) _
              (List.mem_cons_self _ _)
          · exact ih _ (kept + 1) (by omega) sec para idx hmem' hlen

/-- When every qualifying paragraph's identifier is already in the
ledger, the per-title loop accepts nothing and leaves the ledger
unchanged. -/
theorem keepLoop_dedup (minChars maxParas : Nat) (title : String) :
    ∀ (paras : List (String × String × Nat)) (existing : List String) (kept : Nat),
      (∀ sec para idx, ((sec, para, idx) ∈ paras) → minChars ≤ para.length →
        make_paragraph_id title sec idx para ∈ existing) →
      keepLoop minChars maxParas title existing kept paras = ([], existing) := by
  intro paras
  induction paras with
  | nil => intro existing kept h; rfl
  | cons p rest ih =>
    intro existing kept h
    obtain ⟨sec0, para0, idx0⟩ := p
    by_cases h1 : maxParas ≤ kept
    · simp [keepLoop, h1]
    · by_cases h2 : para0.length < minChars
      · simp only [keepLoop, if_neg h1, if_pos h2]
        exact ih existing kept
          (fun sec para idx hm hl => h sec para idx (List.mem_cons_of_mem _ hm) hl)
      · have h3 : make_paragraph_id title sec0 idx0 para0 ∈ existing :=
          h sec0 para0 idx0 (List.mem_cons_self _ _) (not_lt.mp h2)
        simp only [keepLoop, if_neg h1, if_neg h2, if_pos h3]
        exact ih existing kept
          (fun sec para idx hm hl => h sec para idx (List.mem_cons_of_mem _ hm) hl)

/-- The title loop only ever grows the ledger. -/
theorem runTitles_mono (minChars maxParas : Nat) (fetch : String → Option String) :
    ∀ (titles : List String) (existing : List String) (x : String),
      x ∈ existing → x ∈ (runTitles minChars maxParas fetch existing titles).2 := by
  intro titles
  induction titles with
  | nil => intro existing x hx; exact hx
  | cons t ts ih =>
    intro existing x hx
    cases hf : fetch t with
    | none =>
      simp only [runTitles, hf]
      exact ih existing x hx
    | some ex =>
      by_cases he : ex = ""
      · simp only [runTitles, hf, if_pos he]
        exact ih existing x hx
      · simp only [runTitles, hf, if_neg he]
        exact ih _ x (keepLoop_mono minChars maxParas t _ existing 0 x hx)

/-- After a full run whose per-title qualifying counts all fit under the
cap, the final ledger contains the identifier of every qualifying
paragraph of every fetched title. -/
theorem runTitles_covers (minChars maxParas : Nat) (fetch : String → Option String) :
    ∀ (titles : List String) (existing : List String),
      (∀ t ∈ titles, ∀ ex, fetch t = some ex → countQualifying minChars ex ≤ maxParas) →
      ∀ t ∈ titles, ∀ ex, fetch t = some ex → ex ≠ "" →
        ∀ sec para idx, ((sec, para, idx) ∈ split_into_section_paragraphs ex) →
          minChars ≤ para.length →
          make_paragraph_id t sec idx para ∈
            (runTitles minChars maxParas fetch existing titles).2 := by
  intro titles
  induction titles with
  | nil => intro existing hq t ht; simp at ht
  | cons t0 ts ih =>
    intro existing hq t ht ex hfx hne sec para idx hmem hlen
    have hq' : ∀ t' ∈ ts, ∀ ex', fetch t' = some ex' →
        countQualifying minChars ex' ≤ maxParas :=
      fun t' ht' ex' hf' => hq t' (List.mem_cons_of_mem _ ht') ex' hf'
    rcases List.mem_cons.mp ht with rfl | hts
    · simp only [runTitles, hfx, if_neg hne]
      apply runTitles_mono
      apply keepLoop_covers minChars maxParas t _ existing 0 _ sec para idx hmem hlen
      have hcq := hq t (List.mem_cons_self _ _) ex hfx
      simp only [countQualifying] at hcq
      omega
    · cases hf0 : fetch t0 with
      | none =>
        simp only [runTitles, hf0]
        exact ih existing hq' t hts ex hfx hne sec para idx hmem hlen
      | some ex0 =>
        by_cases he0 : ex0 = ""
        · simp only [runTitles, hf0, if_pos he0]
          exact ih existing hq' t hts ex hfx hne sec para idx hmem hlen
        · simp only [runTitles, hf0, if_neg he0]
          exact ih _ hq' t hts ex hfx hne sec para idx hmem hlen

/-- When the ledger already contains the identifier of every qualifying
paragraph of every fetched title, a run accepts nothing and leaves the
ledger unchanged. -/
theorem runTitles_dedup (minChars maxParas : Nat) (fetch : String → Option String) :
    ∀ (titles : List String) (existing : List String),
      (∀ t ∈ titles, ∀ ex, fetch t = some ex → ex ≠ "" →
        ∀ sec para idx, ((sec, para, idx) ∈ split_into_section_paragraphs ex) →
          minChars ≤ para.length → make_paragraph_id t sec idx para ∈ existing) →
      runTitles minChars maxParas fetch existing titles = ([], existing) := by
  intro titles
  induction titles with
  | nil => intro existing h; rfl
  | cons t0 ts ih =>
    intro existing h
    have h' : ∀ t ∈ ts, ∀ ex, fetch t = some ex → ex ≠ "" →
        ∀ sec para idx, ((sec, para, idx) ∈ split_into_section_paragraphs ex) →
          minChars ≤ para.length → make_paragraph_id t sec idx para ∈ existing :=
      fun t ht => h t (List.mem_cons_of_mem _ ht)
    cases hf : fetch t0 with
    | none =>
      simp only [runTitles, hf]
      exact ih existing h'
    | some ex =>
      by_cases he : ex = ""
      · simp only [runTitles, hf, if_pos he]
        exact ih existing h'
      · have hkl : keepLoop minChars maxParas t0 existing 0
            (split_into_section_paragraphs ex) = ([], existing) :=
          keepLoop_dedup minChars maxParas t0 _ existing 0
            (fun sec para idx hm hl =>
              h t0 (List.mem_cons_self _ _) ex hf he sec para idx hm hl)
        simp only [runTitles, hf, if_neg he, hkl]
        rw [ih existing h']
        rfl

/-- C1 (amended): running the pipeline a second time over the same
article texts for the same titles, against the ledger produced by the
first run, writes zero additional rows — provided that for every fetched
title the number of paragraphs passing the length filter is at most the
per-article cap, so the first run never breaks on the cap.  (When the cap
truncates the first run, a second run appends the next batch of new
paragraphs instead; see the counterexample.) -/
theorem c1_rerun_amended (minChars maxParas : Nat) (fetch : String → Option String)
    (existing : List String) (titles : List String)
    (hq : ∀ t ∈ titles, ∀ ex, fetch t = some ex →
      countQualifying minChars ex ≤ maxParas) :
    (runTitles minChars maxParas fetch
      (runTitles minChars maxParas fetch existing titles).2 titles).1 = [] := by
  have hded := runTitles_dedup minChars maxParas fetch titles
    (runTitles minChars maxParas fetch existing titles).2
    (fun t ht ex hf he sec para idx hm hl =>
      runTitles_covers minChars maxParas fetch titles existing hq t ht ex hf he
        sec para idx hm hl)
  rw [hded]

/-- C1 counterexample: with a per-article cap of 1 and an article of two
qualifying paragraphs, the first run keeps one paragraph and breaks on
the cap; in the second run the dedup skip does not advance `kept`, so the
loop reaches the second paragraph, whose identifier is not in the ledger,
and writes it — the re-run is not idempotent. -/
theorem c1_rerun_counterexample :
    (runTitles 1 1 (fun _ => some ("ParaOne\n\nParaTwo"))
      (runTitles 1 1 (fun _ => some ("ParaOne\n\nParaTwo")) [] (["T"])).2 (["T"])).1 ≠
      [] := by
  decide

/-- C1 witness: under a cap that the article's qualifying paragraph count
does not exceed, the second run writes zero rows. -/
theorem c1_rerun_amended_witness :
    (runTitles 1 50 (fun _ => some ("ParaOne\n\nParaTwo"))
      (runTitles 1 50 (fun _ => some ("ParaOne\n\nParaTwo")) [] (["T"])).2 (["T"])).1 =
      [] :=
  c1_rerun_amended 1 50 (fun _ => some ("ParaOne\n\nParaTwo")) [] (["T"])
    (by
      intro t ht ex hfx
      have h2 : some ("ParaOne\n\nParaTwo") = some ex := hfx
      have h3 : ("ParaOne\n\nParaTwo" : String) = ex := by injection h2
      rw [← h3]
      decide)
